import Mathlib

/-!
# Verification of the i18n-adapt translation pipeline

This file gives a shallow embedding of the core of the `i18n-adapt`
repository and proves (or refutes) the frozen claims about it.

The embedded code comes from:
* `lib/languages/processors.js` — `processBatches`, `translateWithGemini`
  (response parsing), `translateStrings` (classification, flattening,
  key derivation via lodash `camelCase`, regrouping);
* `lib/frameworks/react.js` — `updateTranslations` (merge policies,
  backup-then-write persistence).

JavaScript objects are modelled as insertion-ordered association lists
(`List (κ × α)`); property lookup is first-match (`olookup`), property
assignment updates in place or appends (`objInsert`), and object spread
`{...a, ...b}` is `spreadMerge`.  Machine strings are modelled at the
ASCII level: the repository's keyword tables, keys and examples are all
ASCII, and `Char.toLower`/`Char.toUpper` agree with JavaScript there.
Recursions that walk a list by chunks use an explicit fuel argument equal
to the list length, so every definition is a computable `def` that the
kernel can evaluate on concrete inputs.
-/

/-! ## ASCII character classes (as used by lodash's word splitter) -/

def isAsciiLower (c : Char) : Bool := 'a' ≤ c && c ≤ 'z'

def isAsciiUpper (c : Char) : Bool := 'A' ≤ c && c ≤ 'Z'

def isAsciiDigit (c : Char) : Bool := '0' ≤ c && c ≤ '9'

def isAsciiAlnum (c : Char) : Bool := isAsciiLower c || isAsciiUpper c || isAsciiDigit c

/-! ## lodash `camelCase` (ASCII fragment), as called by
`_.camelCase(original.substring(0, 30))` in `translateStrings`.

lodash v4 `camelCase(s)` removes apostrophes, splits the result into
words with `words`, lower-cases every word, and joins them with every
word but the first capitalized.  `words` dispatches on
`reHasUnicodeWord = /[a-z][A-Z]|[A-Z]{2}[a-z]|[0-9][a-zA-Z]|[a-zA-Z][0-9]|[^a-zA-Z0-9 ]/`:
if it matches, the complex `reUnicodeWord` splitter runs (splitting on
non-alphanumeric runs, case transitions, letter/digit boundaries and
keeping ordinal suffixes such as `1st` attached), otherwise words are
simply the maximal alphanumeric runs (`reAsciiWord`).  Both splitters
are reproduced below for ASCII input. -/

def removeApos (l : List Char) : List Char :=
  l.filter (fun c => !(c = '\'' || c = '’'))

/-- `reHasUnicodeWord` of lodash, on a list of characters. -/
def hasUnicodeWord : List Char → Bool
  | [] => false
  | [c] => !(isAsciiAlnum c || c = ' ')
  | c1 :: c2 :: rest =>
    if !(isAsciiAlnum c1 || c1 = ' ') then true
    else if isAsciiLower c1 && isAsciiUpper c2 then true
    else if isAsciiDigit c1 && (isAsciiLower c2 || isAsciiUpper c2) then true
    else if (isAsciiLower c1 || isAsciiUpper c1) && isAsciiDigit c2 then true
    else if isAsciiUpper c1 && isAsciiUpper c2 &&
        (match rest with | c3 :: _ => isAsciiLower c3 | [] => false) then true
    else hasUnicodeWord (c2 :: rest)

/-- Maximal runs of characters satisfying `p` (fuel-driven; fuel `l.length`
always suffices because every step consumes at least one character). -/
def runsFuel (p : Char → Bool) : Nat → List Char → List (List Char)
  | 0, _ => []
  | _, [] => []
  | fuel + 1, c :: rest =>
    if p c then (c :: rest.takeWhile p) :: runsFuel p fuel (rest.dropWhile p)
    else runsFuel p fuel rest

/-- `reAsciiWord` of lodash: for ASCII input, the maximal alphanumeric runs. -/
def asciiWords (l : List Char) : List (List Char) :=
  runsFuel isAsciiAlnum l.length l

/-- Split a list into its initial part and last element. -/
def splitLast {α : Type} : List α → Option (List α × α)
  | [] => none
  | [x] => some ([], x)
  | x :: y :: xs =>
    match splitLast (y :: xs) with
    | some (p, last) => some (x :: p, last)
    | none => none

/-- Lookahead `(?=\b|[a-z_])` of lodash's `rsOrdUpper`: fails exactly when
the next character is an ASCII upper letter or digit. -/
def ordBoundaryUpper (next : Option Char) : Bool :=
  match next with
  | none => true
  | some c => !(isAsciiUpper c || isAsciiDigit c)

/-- Lookahead `(?=\b|[A-Z_])` of lodash's `rsOrdLower`. -/
def ordBoundaryLower (next : Option Char) : Bool :=
  match next with
  | none => true
  | some c => !(isAsciiLower c || isAsciiDigit c)

/-- Whether an ordinal suffix (`1st`, `2nd`, `3rd`, `\dth` with the digit not
1–3, upper- or lower-case) follows a digit run ending in `lastDigit`,
including the regex lookahead.  Models `rsOrdUpper`/`rsOrdLower`. -/
def ordMatch (lastDigit : Char) (after : List Char) : Bool :=
  match after with
  | s :: t :: rest2 =>
    let upperLetters :=
      (lastDigit = '1' && s = 'S' && t = 'T') ||
      (lastDigit = '2' && s = 'N' && t = 'D') ||
      (lastDigit = '3' && s = 'R' && t = 'D') ||
      (!(lastDigit = '1' || lastDigit = '2' || lastDigit = '3') && s = 'T' && t = 'H')
    let lowerLetters :=
      (lastDigit = '1' && s = 's' && t = 't') ||
      (lastDigit = '2' && s = 'n' && t = 'd') ||
      (lastDigit = '3' && s = 'r' && t = 'd') ||
      (!(lastDigit = '1' || lastDigit = '2' || lastDigit = '3') && s = 't' && t = 'h')
    (upperLetters && ordBoundaryUpper rest2.head?) ||
      (lowerLetters && ordBoundaryLower rest2.head?)
  | _ => false

/-- `reUnicodeWord` of lodash restricted to ASCII input (fuel-driven; fuel
`l.length` always suffices).  Tokens: `[A-Z]?[a-z]+`, maximal upper runs
(relinquishing a trailing upper that starts a capitalized word), digit runs
with attached ordinal suffixes, everything else skipped. -/
def uwordsFuel : Nat → List Char → List (List Char)
  | 0, _ => []
  | _, [] => []
  | fuel + 1, c :: rest =>
    if isAsciiLower c then
      (c :: rest.takeWhile isAsciiLower) :: uwordsFuel fuel (rest.dropWhile isAsciiLower)
    else if isAsciiUpper c then
      if rest.head?.any isAsciiLower then
        (c :: rest.takeWhile isAsciiLower) :: uwordsFuel fuel (rest.dropWhile isAsciiLower)
      else
        let us := rest.takeWhile isAsciiUpper
        let after := rest.dropWhile isAsciiUpper
        if after.head?.any isAsciiLower then
          match splitLast (c :: us) with
          | some (initPart, last) =>
            initPart :: (last :: after.takeWhile isAsciiLower) ::
              uwordsFuel fuel (after.dropWhile isAsciiLower)
          | none => []
        else (c :: us) :: uwordsFuel fuel after
    else if isAsciiDigit c then
      let ds := c :: rest.takeWhile isAsciiDigit
      let after := rest.dropWhile isAsciiDigit
      match splitLast ds with
      | some (_, lastD) =>
        if ordMatch lastD after then
          (ds ++ after.take 2) :: uwordsFuel fuel (after.drop 2)
        else ds :: uwordsFuel fuel after
      | none => []
    else uwordsFuel fuel rest

def unicodeWords (l : List Char) : List (List Char) :=
  uwordsFuel l.length l

/-- lodash `words` (no explicit pattern argument). -/
def lodashWords (l : List Char) : List (List Char) :=
  if hasUnicodeWord l then unicodeWords l else asciiWords l

def toLowerWord (w : List Char) : List Char := w.map Char.toLower

/-- lodash `capitalize` applied to an already lower-cased word. -/
def capitalizeWord : List Char → List Char
  | [] => []
  | c :: cs => Char.toUpper c :: cs

/-- lodash `camelCase` on a character list. -/
def camelCaseL (l : List Char) : List Char :=
  match lodashWords (removeApos l) with
  | [] => []
  | w :: ws => toLowerWord w ++ (ws.map (fun w2 => capitalizeWord (toLowerWord w2))).flatten

def camelCase (s : String) : String :=
  String.mk (camelCaseL s.toList)

/-- Key derivation in `translateStrings`:
`const key = _.camelCase(original.substring(0, 30));`
(JS `substring` counts UTF-16 units; for the ASCII model the first 30
characters). -/
def deriveKey (s : String) : String :=
  camelCase (String.mk (s.toList.take 30))

/-! ## Namespace classification (`translateStrings`, lines 127–146) -/

inductive Ns
  | common | navigation | components | messages | forms | errors
deriving DecidableEq, Repr

/-- JS `String.prototype.includes(sub)`: `sub` occurs contiguously in the
receiver. -/
def leadsWith : List Char → List Char → Bool
  | [], _ => true
  | _ :: _, [] => false
  | a :: as, b :: bs => a == b && leadsWith as bs

def containsSub : List Char → List Char → Bool
  | [], needle => needle.isEmpty
  | h :: t, needle => leadsWith needle (h :: t) || containsSub t needle

def strIncludes (s sub : String) : Bool :=
  containsSub s.toList sub.toList

/-- JS `toLowerCase` (ASCII model). -/
def jsToLower (s : String) : String :=
  String.mk (s.toList.map Char.toLower)

/-- The string categorization inside `translateStrings`: lower-case the
phrase, then test the keyword groups in source order, falling back to a
length test and finally `components`. -/
def classify (str : String) : Ns :=
  let lowerStr := jsToLower str
  if strIncludes lowerStr "error" || strIncludes lowerStr "fail" ||
      strIncludes lowerStr "invalid" then .errors
  else if strIncludes lowerStr "home" || strIncludes lowerStr "about" ||
      strIncludes lowerStr "contact" then .navigation
  else if strIncludes lowerStr "submit" || strIncludes lowerStr "cancel" ||
      strIncludes lowerStr "save" then .forms
  else if strIncludes lowerStr "loading" || strIncludes lowerStr "success" ||
      strIncludes lowerStr "warning" then .messages
  else if str.toList.length < 20 then .common
  else .components

/-- Modelled from the spec (§4.3): the classifier as an explicit ordered
rule list evaluated top-to-bottom, first match wins.  Used to state the
refinement claim C6 against `classify`. -/
def ruleList : List ((String → Bool) × Ns) :=
  [ (fun s => strIncludes (jsToLower s) "error" || strIncludes (jsToLower s) "fail" ||
        strIncludes (jsToLower s) "invalid", Ns.errors),
    (fun s => strIncludes (jsToLower s) "home" || strIncludes (jsToLower s) "about" ||
        strIncludes (jsToLower s) "contact", Ns.navigation),
    (fun s => strIncludes (jsToLower s) "submit" || strIncludes (jsToLower s) "cancel" ||
        strIncludes (jsToLower s) "save", Ns.forms),
    (fun s => strIncludes (jsToLower s) "loading" || strIncludes (jsToLower s) "success" ||
        strIncludes (jsToLower s) "warning", Ns.messages),
    (fun s => s.toList.length < 20, Ns.common),
    (fun _ => true, Ns.components) ]

def classifySpec (s : String) : Ns :=
  ((ruleList.find? (fun r => r.1 s)).map (fun r => r.2)).getD Ns.components

/-! ## JavaScript objects as insertion-ordered association lists -/

/-- JS property read `m[k]`: first (and in a real JS object, only) entry
with key `k`. -/
def olookup {κ α : Type} [DecidableEq κ] : List (κ × α) → κ → Option α
  | [], _ => none
  | (k', v) :: t, k => if k' = k then some v else olookup t k

/-- JS property assignment `m[k] = v`: overwrite in place if the key is
present, append otherwise. -/
def objInsert {κ α : Type} [DecidableEq κ] (m : List (κ × α)) (k : κ) (v : α) :
    List (κ × α) :=
  if (olookup m k).isSome then
    m.map (fun p => if p.1 = k then (p.1, v) else p)
  else m ++ [(k, v)]

/-- JS object spread `{...a, ...b}`: the keys of `a` in order, with `b`'s
value where the key collides, followed by the keys of `b` that are absent
from `a`, in `b`'s order. -/
def spreadMerge {κ α : Type} [DecidableEq κ] (a b : List (κ × α)) : List (κ × α) :=
  a.map (fun p =>
    match olookup b p.1 with
    | some v => (p.1, v)
    | none => p)
  ++ b.filter (fun p => (olookup a p.1).isNone)

/-- One namespace of a language's translations: key → translated text. -/
abbrev NsContent := List (String × String)

/-- One language's translations: namespace → key → text. -/
abbrev LangContent := List (String × NsContent)

/-! ## Resource merge engine (`updateTranslations` in `lib/frameworks/react.js`) -/

/-- The incremental merge of `updateTranslations` (lines 224–231):
```
const mergedTranslations = { ...existingTranslations };
Object.keys(translations).forEach(namespace => {
  mergedTranslations[namespace] = {
    ...(mergedTranslations[namespace] || {}),
    ...translations[namespace]
  };
});
```
The accumulator starts as a shallow copy of the existing content and each
namespace of the new entries is spread-merged into it in turn. -/
def mergeTranslations (existing : LangContent) : LangContent → LangContent
  | [] => existing
  | (ns, nsc) :: rest =>
    mergeTranslations
      (objInsert existing ns (spreadMerge ((olookup existing ns).getD []) nsc)) rest

/-- Outcome of evaluating the matched `<language>Translations` object text
with `new Function(...)` (line 221): either the existing content, or a
thrown error.  The dynamic JS evaluation itself is host behaviour; its
outcome is an input of the model. -/
inductive EvalOutcome
  | ok (c : LangContent)
  | err
deriving DecidableEq

/-- Whether the file already contains a `const <language>Translations = {...};`
block (the `langRegex.test(content)` branch, line 208), and if so what its
evaluation yields. -/
inductive LangBlock
  | absent
  | present (ev : EvalOutcome)
deriving DecidableEq

/-- The target language's content in the updated file text
(`updateTranslations`, lines 205–259, content level):
* block present and `forceAll` — replaced wholesale by the new entries;
* block present, incremental, evaluation succeeds — `mergeTranslations`;
* block present, incremental, evaluation throws — warn and fall back to
  replacement (lines 237–244);
* block absent — the new entries are inserted as a fresh block (assuming
  the file matches the insertion regexes, as the generated `i18n.js` does). -/
def computeUpdated : LangBlock → LangContent → Bool → LangContent
  | .present _, translations, true => translations
  | .present (.ok existing), translations, false => mergeTranslations existing translations
  | .present .err, translations, false => translations
  | .absent, translations, _ => translations

/-- The files touched by `updateTranslations`: the resource file's content
and the stack of backup copies, over an abstract content type `γ` (raw
file bytes). -/
structure FsState (γ : Type) where
  resource : γ
  backups : List γ
deriving DecidableEq

/-- The effectful tail of `updateTranslations` (lines 202, 261–267): read
the resource, compute the updated content purely, then
`await fs.copy(i18nFile, backupPath)` and only then
`await fs.writeFile(i18nFile, updatedContent)`.  `backupOk` is whether the
backup copy succeeds; if it throws, the `await` aborts the function before
the write, leaving the resource untouched.  (The backup path carries a
`Date.now()` timestamp; real time is outside the model.)  Returns the
resulting file state and whether the update completed. -/
def updateTranslationsFs {γ : Type} (update : γ → γ) (backupOk : Bool)
    (st : FsState γ) : FsState γ × Bool :=
  let updatedContent := update st.resource
  if backupOk then
    ({ resource := updatedContent, backups := st.resource :: st.backups }, true)
  else (st, false)

/-- How `updateTranslations` rewrites the target language's block: after a
completed run the block exists and evaluates to `computeUpdated`. -/
def updateLangBlock (translations : LangContent) (forceAll : Bool) (b : LangBlock) :
    LangBlock :=
  LangBlock.present (.ok (computeUpdated b translations forceAll))

/-- `updateTranslations` at the granularity of the target language's block:
the pure rewrite composed with the backup-then-write persistence. -/
def updateTranslationsRun (translations : LangContent) (forceAll backupOk : Bool)
    (st : FsState LangBlock) : FsState LangBlock × Bool :=
  updateTranslationsFs (updateLangBlock translations forceAll) backupOk st

/-- Nested lookup in a language's content: `content[ns][k]`. -/
def lookupKey (c : LangContent) (ns k : String) : Option String :=
  (olookup c ns).bind (fun m => olookup m k)

/-! ## Batching controller (`processBatches`, `lib/languages/processors.js`
lines 6–27)

```
async function processBatches(items, processFn, batchSize = 15, delayMs = 2000) {
  const results = [];
  for (let i = 0; i < items.length; i += batchSize) {
    const batch = items.slice(i, i + batchSize);
    try {
      const batchResults = await processFn(batch);
      results.push(...batchResults);
      if (i + batchSize < items.length) {
        await new Promise(resolve => setTimeout(resolve, delayMs));
      }
    } catch (err) { ...; throw err; }
  }
  return results;
}
```

The model returns the aggregated result (or the first error, rethrown
unchanged), the number of inter-batch pauses actually performed, and the
trace of chunks passed to `processFn`, in invocation order.  The pause
duration itself is real time and outside the model; only its occurrences
are counted.  Fuel `items.length` suffices whenever `batchSize ≥ 1`; with
`batchSize = 0` the source loops forever (`i += 0`), which the model leaves
outside its domain (all theorems assume `1 ≤ batchSize`). -/

def defaultBatchSize : Nat := 15

def defaultDelayMs : Nat := 2000

def processBatchesGo {α β ε : Type} (f : List α → Except ε (List β)) (batchSize : Nat) :
    Nat → List α → Except ε (List β) × Nat × List (List α)
  | _, [] => (.ok [], 0, [])
  | 0, _ :: _ => (.ok [], 0, [])
  | fuel + 1, x :: xs =>
    let items := x :: xs
    let batch := items.take batchSize
    match f batch with
    | .error e => (.error e, 0, [batch])
    | .ok batchResults =>
      if items.length ≤ batchSize then (.ok batchResults, 0, [batch])
      else
        let r := processBatchesGo f batchSize fuel (items.drop batchSize)
        (r.1.map (fun l => batchResults ++ l), r.2.1 + 1, batch :: r.2.2)

def processBatches {α β ε : Type} (f : List α → Except ε (List β)) (batchSize : Nat)
    (items : List α) : Except ε (List β) × Nat × List (List α) :=
  processBatchesGo f batchSize items.length items

/-! ## Translation orchestrator (`translateStrings`, lines 112–194) -/

/-- The fixed bucket iteration order: the insertion order of the
`namespaces` object literal (lines 118–125), over which `Object.keys`
iterates during flattening. -/
def nsOrder : List Ns :=
  [.common, .navigation, .components, .messages, .forms, .errors]

/-- The flattening of the namespace buckets (lines 148–159): every phrase
paired with its namespace, bucket by bucket in `nsOrder`, preserving the
phrases' relative order inside each bucket (= `indexMap`). -/
def flattened (strings : List String) : List (Ns × String) :=
  (nsOrder.map (fun ns =>
    (strings.filter (fun s => classify s = ns)).map (fun s => (ns, s)))).flatten

/-- The regrouped result `translatedObject`: namespace → derived key →
translated text. -/
abbrev TranslatedObject := List (Ns × List (String × String))

/-- `translatedObject[namespace][key] = translation` with on-demand
creation of the namespace object (lines 182–191, loop body). -/
def objInsertNS (obj : TranslatedObject) (ns : Ns) (key val : String) :
    TranslatedObject :=
  objInsert obj ns (objInsert ((olookup obj ns).getD []) key val)

/-- The regrouping loop (lines 180–191):
`translations.forEach((translation, idx) => { ... indexMap[idx] ... })`.
It iterates over the *translations* only: surplus phrases in `indexMap`
are silently ignored when the translation list is shorter, and a
translation list longer than `indexMap` destructures `undefined` and
throws a `TypeError`. -/
def regroupGo (obj : TranslatedObject) :
    List (Ns × String) → List String → Except String TranslatedObject
  | _, [] => .ok obj
  | [], _ :: _ => .error "TypeError: cannot destructure undefined"
  | (ns, original) :: restMap, t :: restT =>
    regroupGo (objInsertNS obj ns (deriveKey original) t) restMap restT

/-- `translateWithGoogle` (lines 105–109) throws unconditionally. -/
def translateWithGoogle {α : Type} : α → Except String (List String) :=
  fun _ => .error "Google Translate backup not implemented"

/-- `translateStrings(strings, targetLang, apiKey, service)`.  The network
call made per batch by `translateWithGemini` is abstracted as `perBatch`
(the target language and API key only feed the prompt and URL of that
call).  Returns the orchestrator's result together with the trace of
batches sent to the provider (empty trace = zero provider calls). -/
def translateStrings (strings : List String) (_targetLang _apiKey service : String)
    (perBatch : List String → Except String (List String)) :
    Except String TranslatedObject × List (List String) :=
  if strings.isEmpty then (.ok [], [])
  else
    let flat := flattened strings
    let allStrings := flat.map Prod.snd
    let run :=
      if service = "gemini" then processBatches perBatch defaultBatchSize allStrings
      else if service = "google" then
        processBatches translateWithGoogle defaultBatchSize allStrings
      else (.error ("Unsupported translation service: " ++ service), 0, [])
    match run.1 with
    | .error e => (.error e, run.2.2)
    | .ok translations => (regroupGo [] flat translations, run.2.2)

/-- Total number of (namespace, key) entries in a regrouped object. -/
def totalEntries (obj : TranslatedObject) : Nat :=
  (obj.map (fun p => p.2.length)).sum

/-! ## Gemini response parsing (`translateWithGemini`, lines 81–94)

```
const match = responseText.match(/\[([\s\S]*)\]/);
if (match) {
  const arrayText = `[${match[1]}]`;
  return JSON.parse(arrayText);
} else {
  return JSON.parse(responseText);
}
```
The regex is greedy: the match runs from the first `[` that has some later
`]` all the way to the *last* `]` of the text. -/

/-- Split a character list around the *last* occurrence of `x`:
`splitAtLast x l = some (before, after)` with `l = before ++ x :: after`
and `x ∉ after`. -/
def splitAtLast (x : Char) : List Char → Option (List Char × List Char)
  | [] => none
  | c :: rest =>
    match splitAtLast x rest with
    | some (b, a) => some (c :: b, a)
    | none => if c = x then some ([], rest) else none

/-- The full match of `/\[([\s\S]*)\]/` on the text, if any: from the
first `[` (with a later `]`) through the last `]`. -/
def extractArray : List Char → Option (List Char)
  | [] => none
  | c :: rest =>
    if c = '[' then
      match splitAtLast ']' rest with
      | some (before, _) => some ('[' :: (before ++ [']']))
      | none => extractArray rest
    else extractArray rest

/-- The text handed to `JSON.parse`: the regex match if there is one, the
whole response otherwise. -/
def geminiExtract (s : String) : String :=
  match extractArray s.toList with
  | some t => String.mk t
  | none => s

/-- Modelled from the spec (§4.1): "locate the first top-level bracketed
array substring in the response text" — from the first `[`, scan to the
bracket-matching `]` (depth counting).  Used only to state claim C9
against the code's greedy extraction. -/
def scanBalanced : Nat → Nat → List Char → Option (List Char)
  | _, _, [] => none
  | 0, _, _ :: _ => none
  | fuel + 1, depth, c :: rest =>
    if c = ']' then
      if depth = 1 then some [']']
      else (scanBalanced fuel (depth - 1) rest).map (fun t => c :: t)
    else if c = '[' then (scanBalanced fuel (depth + 1) rest).map (fun t => c :: t)
    else (scanBalanced fuel depth rest).map (fun t => c :: t)

def firstTopLevelArraySpec : List Char → Option (List Char)
  | [] => none
  | c :: rest =>
    if c = '[' then (scanBalanced rest.length 1 rest).map (fun t => c :: t)
    else firstTopLevelArraySpec rest

/-! ## `JSON.parse` on the provider payload

The prompt demands "only the translations as a JSON array", and the
pipeline can only consume an array of strings, so `JSON.parse` is
modelled as a strict parser of JSON string arrays (whitespace, string
escapes, trailing-garbage rejection as in JSON).  Inputs that are valid
JSON of another shape (numbers, objects, ...) are treated as parse
failures; the real `JSON.parse` would return a value the regrouping loop
cannot use, a case no claim touches. -/

def jsonWs (c : Char) : Bool :=
  c = ' ' || c = '\t' || c = '\n' || c = '\r'

def hexVal (c : Char) : Option Nat :=
  if isAsciiDigit c then some (c.toNat - 48)
  else if 'a' ≤ c && c ≤ 'f' then some (c.toNat - 87)
  else if 'A' ≤ c && c ≤ 'F' then some (c.toNat - 55)
  else none

/-- Parse the body of a JSON string (after the opening quote); returns the
decoded characters and the remainder after the closing quote. -/
def parseStringBody : Nat → List Char → Option (List Char × List Char)
  | 0, _ => none
  | _ + 1, [] => none
  | fuel + 1, c :: rest =>
    if c = '"' then some ([], rest)
    else if c = '\\' then
      match rest with
      | [] => none
      | e :: rest2 =>
        if e = '"' || e = '\\' || e = '/' then
          (parseStringBody fuel rest2).map (fun p => (e :: p.1, p.2))
        else if e = 'b' then
          (parseStringBody fuel rest2).map (fun p => (Char.ofNat 8 :: p.1, p.2))
        else if e = 'f' then
          (parseStringBody fuel rest2).map (fun p => (Char.ofNat 12 :: p.1, p.2))
        else if e = 'n' then
          (parseStringBody fuel rest2).map (fun p => ('\n' :: p.1, p.2))
        else if e = 'r' then
          (parseStringBody fuel rest2).map (fun p => (Char.ofNat 13 :: p.1, p.2))
        else if e = 't' then
          (parseStringBody fuel rest2).map (fun p => ('\t' :: p.1, p.2))
        else if e = 'u' then
          match rest2 with
          | h1 :: h2 :: h3 :: h4 :: rest3 =>
            match hexVal h1, hexVal h2, hexVal h3, hexVal h4 with
            | some a, some b, some c2, some d =>
              (parseStringBody fuel rest3).map
                (fun p => (Char.ofNat (a * 4096 + b * 256 + c2 * 16 + d) :: p.1, p.2))
            | _, _, _, _ => none
          | _ => none
        else none
    else if c.toNat < 32 then none
    else (parseStringBody fuel rest).map (fun p => (c :: p.1, p.2))

/-- Parse a comma-separated sequence of JSON strings up to the closing `]`
and the end of input (leading whitespace already consumed). -/
def parseItemsGo : Nat → List Char → Option (List String)
  | 0, _ => none
  | fuel + 1, l =>
    match l with
    | '"' :: rest =>
      match parseStringBody rest.length rest with
      | none => none
      | some (v, r) =>
        match r.dropWhile jsonWs with
        | ',' :: r2 => (parseItemsGo fuel (r2.dropWhile jsonWs)).map
            (fun vs => String.mk v :: vs)
        | ']' :: r2 => if (r2.dropWhile jsonWs).isEmpty then some [String.mk v] else none
        | _ => none
    | _ => none

/-- `JSON.parse` restricted to arrays of strings. -/
def jsonStringArray (l : List Char) : Option (List String) :=
  match l.dropWhile jsonWs with
  | '[' :: rest =>
    match rest.dropWhile jsonWs with
    | ']' :: r2 => if (r2.dropWhile jsonWs).isEmpty then some [] else none
    | r1 => parseItemsGo r1.length r1
  | _ => none

/-- The response-text processing of `translateWithGemini` (lines 84–91):
extract the greedy bracket span (or fall back to the whole text) and
`JSON.parse` it; a parse failure throws, and since a `SyntaxError` has no
`.response` field the `catch` block rethrows it unchanged — the failure
propagates to the caller. -/
def parseGeminiResponse (responseText : String) : Except String (List String) :=
  match jsonStringArray (geminiExtract responseText).toList with
  | some arr => .ok arr
  | none => .error "SyntaxError: unexpected token in JSON"

/-! ## Lemmas about the object model -/

/-- First-defined of two optional values (JS-style shadowing order). -/
def ofirst {α : Type} : Option α → Option α → Option α
  | some v, _ => some v
  | none, b => b

def keys {κ α : Type} (m : List (κ × α)) : List κ := m.map Prod.fst

theorem ofirst_none_right {α : Type} (a : Option α) : ofirst a none = a := by
  cases a <;> rfl

theorem olookup_cons {κ α : Type} [DecidableEq κ] (x : κ × α) (t : List (κ × α)) (k : κ) :
    olookup (x :: t) k = if x.1 = k then some x.2 else olookup t k := by
  obtain ⟨a, b⟩ := x
  rfl

theorem olookup_append {κ α : Type} [DecidableEq κ] (l₁ l₂ : List (κ × α)) (k : κ) :
    olookup (l₁ ++ l₂) k = ofirst (olookup l₁ k) (olookup l₂ k) := by
  induction l₁ with
  | nil => rfl
  | cons p t ih =>
    obtain ⟨k', v⟩ := p
    by_cases h : k' = k <;> simp [olookup, h, ih, ofirst]

theorem olookup_map_spread {κ α : Type} [DecidableEq κ] (a b : List (κ × α)) (k : κ) :
    olookup (a.map (fun p =>
      match olookup b p.1 with
      | some v => (p.1, v)
      | none => p)) k = (olookup a k).map (fun v => (olookup b k).getD v) := by
  induction a with
  | nil => rfl
  | cons p t ih =>
    obtain ⟨k0, v0⟩ := p
    rw [List.map_cons, olookup_cons, olookup_cons]
    cases hb : olookup b k0 with
    | some w =>
      by_cases h : k0 = k
      · subst h
        simp [hb]
      · simp [hb, h, ih]
    | none =>
      by_cases h : k0 = k
      · subst h
        simp [hb]
      · simp [hb, h, ih]

theorem olookup_filter_none {κ α : Type} [DecidableEq κ] (a b : List (κ × α)) (k : κ) :
    olookup (b.filter (fun p => (olookup a p.1).isNone)) k =
      if (olookup a k).isNone then olookup b k else none := by
  induction b with
  | nil => simp [olookup]
  | cons p t ih =>
    obtain ⟨k0, v0⟩ := p
    by_cases h : k0 = k
    · subst h
      cases ha : (olookup a k0).isNone <;>
        simp [List.filter_cons, olookup_cons, ha, ih]
    · cases ha : (olookup a k0).isNone <;>
        simp [List.filter_cons, olookup_cons, ha, h, ih]

theorem olookup_spreadMerge {κ α : Type} [DecidableEq κ] (a b : List (κ × α)) (k : κ) :
    olookup (spreadMerge a b) k = ofirst (olookup b k) (olookup a k) := by
  unfold spreadMerge
  rw [olookup_append, olookup_map_spread, olookup_filter_none]
  cases ha : olookup a k <;> cases hb : olookup b k <;> simp [ofirst, ha, hb]

theorem olookup_map_set {κ α : Type} [DecidableEq κ] (m : List (κ × α)) (k : κ) (v : α) :
    olookup (m.map (fun p => if p.1 = k then (p.1, v) else p)) k =
      (olookup m k).map (fun _ => v) := by
  induction m with
  | nil => rfl
  | cons p t ih =>
    obtain ⟨k0, v0⟩ := p
    rw [List.map_cons, olookup_cons, olookup_cons]
    by_cases h : k0 = k
    · subst h
      simp
    · simp [h, ih]

theorem olookup_map_set_ne {κ α : Type} [DecidableEq κ] (m : List (κ × α)) (k k' : κ)
    (v : α) (hne : ¬k = k') :
    olookup (m.map (fun p => if p.1 = k then (p.1, v) else p)) k' = olookup m k' := by
  induction m with
  | nil => rfl
  | cons p t ih =>
    obtain ⟨k0, v0⟩ := p
    rw [List.map_cons, olookup_cons, olookup_cons]
    by_cases h : k0 = k
    · subst h
      simp [fun hc : k0 = k' => hne hc, ih]
    · simp [h, ih]

theorem olookup_objInsert {κ α : Type} [DecidableEq κ] (m : List (κ × α)) (k k' : κ)
    (v : α) :
    olookup (objInsert m k v) k' = if k = k' then some v else olookup m k' := by
  unfold objInsert
  by_cases hs : (olookup m k).isSome = true
  · rw [if_pos hs]
    by_cases h : k = k'
    · subst h
      rw [olookup_map_set]
      obtain ⟨w, hw⟩ := Option.isSome_iff_exists.mp hs
      simp [hw]
    · rw [olookup_map_set_ne m k k' v h, if_neg h]
  · rw [if_neg hs]
    rw [olookup_append]
    by_cases h : k = k'
    · subst h
      rw [Option.not_isSome_iff_eq_none.mp hs]
      simp [olookup, ofirst]
    · rw [olookup_cons]
      simp only [h, if_false]
      simp [olookup, ofirst_none_right]

theorem olookup_eq_none_of_notin {κ α : Type} [DecidableEq κ] (m : List (κ × α)) (k : κ)
    (h : k ∉ keys m) : olookup m k = none := by
  induction m with
  | nil => rfl
  | cons p t ih =>
    obtain ⟨k0, v0⟩ := p
    simp only [keys, List.map_cons, List.mem_cons] at h
    push_neg at h
    rw [olookup_cons]
    simp only [Ne.symm h.1, if_false]
    exact ih (by simpa [keys] using h.2)


/-! ## Lemmas about the incremental merge -/

theorem mergeTranslations_olookup_notin (existing news : LangContent) (ns : String)
    (h : olookup news ns = none) :
    olookup (mergeTranslations existing news) ns = olookup existing ns := by
  induction news generalizing existing with
  | nil => rfl
  | cons p rest ih =>
    obtain ⟨ns0, nsc⟩ := p
    rw [olookup_cons] at h
    by_cases hn : ns0 = ns
    · simp [hn] at h
    · simp only [hn, if_false] at h
      unfold mergeTranslations
      rw [ih _ h, olookup_objInsert]
      simp [hn]

theorem mergeTranslations_lookupKey (existing news : LangContent)
    (hnd : (keys news).Nodup) (ns k : String) :
    lookupKey (mergeTranslations existing news) ns k =
      ofirst (lookupKey news ns k) (lookupKey existing ns k) := by
  induction news generalizing existing with
  | nil => simp [mergeTranslations, lookupKey, olookup, ofirst]
  | cons p rest ih =>
    obtain ⟨ns0, nsc⟩ := p
    simp only [keys, List.map_cons, List.nodup_cons] at hnd
    obtain ⟨hnotin, hrest⟩ := hnd
    unfold mergeTranslations
    by_cases hn : ns0 = ns
    · subst hn
      have hrestnone : olookup rest ns0 = none :=
        olookup_eq_none_of_notin rest ns0 (by simpa [keys] using hnotin)
      unfold lookupKey
      rw [mergeTranslations_olookup_notin _ _ _ hrestnone, olookup_objInsert,
        olookup_cons, if_pos rfl]
      simp only [if_pos rfl, Option.some_bind]
      rw [olookup_spreadMerge]
      cases hex : olookup existing ns0 with
      | some m => simp [hex, ofirst]
      | none => simp [hex, olookup, ofirst]
    · rw [ih _ hrest]
      unfold lookupKey
      rw [olookup_objInsert, olookup_cons]
      simp [hn]

/-- C3 (confirmed): under the incremental policy (`forceAll = false`), for an
existing resource whose target-language content is well-formed (the block
evaluates to `existing`), `updateTranslations` shallow-merges namespace-wise:
a key present in the new entries wins, a key present only in the existing
content survives, and a namespace absent from the new entries is left
unchanged; the concrete example `{es:{common:{a:"x"}}}` merged with
`{common:{b:"y"}}` persists as `{es:{common:{a:"x", b:"y"}}}`. -/
theorem updateTranslations_incremental_merge :
    (∀ existing news : LangContent, (keys news).Nodup →
      ∀ ns k : String,
        lookupKey (computeUpdated (.present (.ok existing)) news false) ns k =
          ofirst (lookupKey news ns k) (lookupKey existing ns k))
    ∧ (∀ existing news : LangContent, ∀ ns : String, olookup news ns = none →
        olookup (computeUpdated (.present (.ok existing)) news false) ns =
          olookup existing ns)
    ∧ (updateTranslationsRun [("common", [("b", "y")])] false true
        ⟨.present (.ok [("common", [("a", "x")])]), []⟩).1.resource =
        .present (.ok [("common", [("a", "x"), ("b", "y")])]) := by
  refine ⟨?_, ?_, rfl⟩
  · intro existing news hnd ns k
    exact mergeTranslations_lookupKey existing news hnd ns k
  · intro existing news ns h
    exact mergeTranslations_olookup_notin existing news ns h

theorem updateTranslations_incremental_merge_witness :
    lookupKey (computeUpdated (.present (.ok [("common", [("a", "x")])]))
        [("common", [("b", "y")])] false) "common" "a" = some "x"
    ∧ lookupKey (computeUpdated (.present (.ok [("common", [("a", "x")])]))
        [("common", [("b", "y")])] false) "common" "b" = some "y" := by
  constructor
  · rw [updateTranslations_incremental_merge.1 [("common", [("a", "x")])]
      [("common", [("b", "y")])] (by decide) "common" "a"]
    rfl
  · rw [updateTranslations_incremental_merge.1 [("common", [("a", "x")])]
      [("common", [("b", "y")])] (by decide) "common" "b"]
    rfl

/-- C4 (confirmed): under the force policy (`forceAll = true`), an existing
target-language block is replaced wholesale by the new entries; with existing
`{es:{common:{a:"x"}}}` and new entries `{common:{b:"y"}}` the persisted
result is `{es:{common:{b:"y"}}}` and key `a` is gone. -/
theorem updateTranslations_force_replaces :
    (∀ (ev : EvalOutcome) (translations : LangContent),
      computeUpdated (.present ev) translations true = translations)
    ∧ (updateTranslationsRun [("common", [("b", "y")])] true true
        ⟨.present (.ok [("common", [("a", "x")])]), []⟩).1.resource =
        .present (.ok [("common", [("b", "y")])])
    ∧ lookupKey [("common", [("b", "y")])] "common" "a" = none := by
  refine ⟨?_, rfl, rfl⟩
  intro ev translations
  cases ev <;> rfl

/-- C5 (confirmed): for any content rewrite and any prior file state, a
completed `updateTranslations` pushes a backup whose content is exactly the
resource's pre-merge content before the resource is rewritten, and if the
backup copy fails the run aborts with the resource (and backup stack)
untouched.  (`Date.now()` in the backup file name is real time, outside the
model; the claim's content is the backup's existence and content.) -/
theorem updateTranslations_backup_before_write :
    ∀ (γ : Type) (update : γ → γ) (st : FsState γ),
      ((updateTranslationsFs update true st).2 = true
        ∧ (updateTranslationsFs update true st).1.backups = st.resource :: st.backups
        ∧ (updateTranslationsFs update true st).1.resource = update st.resource)
      ∧ updateTranslationsFs update false st = (st, false) := by
  intro γ update st
  exact ⟨⟨rfl, rfl, rfl⟩, rfl⟩

/-- C10 (confirmed): during an incremental update of an existing block whose
evaluation throws, `updateTranslations` does not fail: it falls back to
replacing the language's content with the new entries (so existing keys not
in the new entries are dropped), and the run still completes with a backup. -/
theorem updateTranslations_eval_error_fallback :
    (∀ translations : LangContent,
      computeUpdated (.present .err) translations false = translations)
    ∧ ∀ (translations : LangContent) (bs : List LangBlock),
        updateTranslationsRun translations false true ⟨.present .err, bs⟩ =
          (⟨.present (.ok translations), .present .err :: bs⟩, true) := by
  exact ⟨fun _ => rfl, fun _ _ => rfl⟩

/-- C6 (confirmed): namespace classification is a deterministic pure function
of the phrase text; it equals the evaluation of the fixed ordered rule list
(`ruleList`, the §4.3 order) with first match winning, and in particular
"Submit Error" classifies as `errors`, not `forms`, because the error rule
precedes the forms rule. -/
theorem classify_first_match :
    (∀ s : String, classify s = classifySpec s)
    ∧ classify "Submit Error" = Ns.errors ∧ classify "Submit Error" ≠ Ns.forms := by
  refine ⟨?_, rfl, by decide⟩
  intro s
  unfold classify classifySpec ruleList
  simp only [List.find?]
  by_cases h1 : (strIncludes (jsToLower s) "error" || strIncludes (jsToLower s) "fail" ||
      strIncludes (jsToLower s) "invalid") = true
  · simp [h1]
  · simp only [Bool.not_eq_true] at h1
    simp only [h1]
    by_cases h2 : (strIncludes (jsToLower s) "home" || strIncludes (jsToLower s) "about" ||
        strIncludes (jsToLower s) "contact") = true
    · simp [h2]
    · simp only [Bool.not_eq_true] at h2
      simp only [h2]
      by_cases h3 : (strIncludes (jsToLower s) "submit" || strIncludes (jsToLower s) "cancel" ||
          strIncludes (jsToLower s) "save") = true
      · simp [h3]
      · simp only [Bool.not_eq_true] at h3
        simp only [h3]
        by_cases h4 : (strIncludes (jsToLower s) "loading" || strIncludes (jsToLower s) "success" ||
            strIncludes (jsToLower s) "warning") = true
        · simp [h4]
        · simp only [Bool.not_eq_true] at h4
          simp only [h4]
          by_cases h5 : s.length < 20
          · simp [h5]
          · simp [h5]

/-- C8 (confirmed): for every target language, credential and service string,
`translateStrings` on the empty phrase list returns the empty mapping with an
empty provider-call trace (zero network calls), before the service is even
inspected. -/
theorem translateStrings_empty_short_circuit :
    ∀ (targetLang apiKey service : String)
      (perBatch : List String → Except String (List String)),
      translateStrings [] targetLang apiKey service perBatch = (.ok [], []) := by
  intro targetLang apiKey service perBatch
  rfl

theorem processBatchesGo_map_props {α β ε : Type} (g : α → β) (batchSize : Nat)
    (hB : 1 ≤ batchSize) :
    ∀ (fuel : Nat) (items : List α), items.length ≤ fuel →
      (processBatchesGo (fun xs => (Except.ok (xs.map g) : Except ε (List β)))
          batchSize fuel items).1 = Except.ok (items.map g)
      ∧ (processBatchesGo (fun xs => (Except.ok (xs.map g) : Except ε (List β)))
          batchSize fuel items).2.1 = (items.length - 1) / batchSize
      ∧ (processBatchesGo (fun xs => (Except.ok (xs.map g) : Except ε (List β)))
          batchSize fuel items).2.2.flatten = items
      ∧ ∀ c ∈ (processBatchesGo (fun xs => (Except.ok (xs.map g) : Except ε (List β)))
          batchSize fuel items).2.2, c.length ≤ batchSize ∧ c ≠ [] := by
  intro fuel
  induction fuel with
  | zero =>
    intro items hlen
    have : items = [] := List.eq_nil_of_length_eq_zero (Nat.le_zero.mp hlen)
    subst this
    refine ⟨rfl, by simp [processBatchesGo], rfl, by simp [processBatchesGo]⟩
  | succ fuel ih =>
    intro items hlen
    match items with
    | [] => exact ⟨rfl, by simp [processBatchesGo], rfl, by simp [processBatchesGo]⟩
    | x :: xs =>
      by_cases hle : (x :: xs).length ≤ batchSize
      · have htake : (x :: xs).take batchSize = x :: xs := List.take_of_length_le hle
        refine ⟨?_, ?_, ?_, ?_⟩
        · simp only [processBatchesGo, hle, if_true, htake]
        · simp only [processBatchesGo, hle, if_true]
          rw [Nat.div_eq_of_lt (by simp at hle ⊢; omega)]
        · simp only [processBatchesGo, hle, if_true, htake, List.flatten]
          simp
        · simp only [processBatchesGo, hle, if_true, htake]
          intro c hc
          simp at hc
          subst hc
          exact ⟨hle, by simp⟩
      · push_neg at hle
        have hdrop : ((x :: xs).drop batchSize).length ≤ fuel := by
          simp only [List.length_drop]
          simp at hlen ⊢
          omega
        obtain ⟨ih1, ih2, ih3, ih4⟩ := ih ((x :: xs).drop batchSize) hdrop
        have hnotle : ¬(x :: xs).length ≤ batchSize := by omega
        refine ⟨?_, ?_, ?_, ?_⟩
        · simp only [processBatchesGo, hnotle, if_false]
          rw [ih1]
          show Except.ok (((x :: xs).take batchSize).map g ++
            ((x :: xs).drop batchSize).map g) = _
          rw [← List.map_append, List.take_append_drop]
        · simp only [processBatchesGo, hnotle, if_false]
          rw [ih2]
          simp only [List.length_drop]
          have h1 : (x :: xs).length - 1 = ((x :: xs).length - batchSize - 1) + batchSize := by
            omega
          rw [h1, Nat.add_div_right _ (by omega)]
        · simp only [processBatchesGo, hnotle, if_false, List.flatten]
          rw [ih3]
          exact List.take_append_drop batchSize (x :: xs)
        · simp only [processBatchesGo, hnotle, if_false]
          intro c hc
          simp only [List.mem_cons] at hc
          rcases hc with hc | hc
          · subst hc
            constructor
            · simp [List.length_take]
            · match batchSize, hB with
              | b + 1, _ => simp
          · exact ih4 c hc

/-- C2 (confirmed): for every item list, every per-batch function that maps a
chunk element-wise (`fun xs => .ok (xs.map g)`), and every batch size `≥ 1`
(which covers the claimed range `[1, len(P)]`), `processBatches` invokes the
function on nonempty contiguous chunks of at most `batchSize` elements whose
concatenation is exactly the item list, returns the concatenated results in
the same global order as the input, and pauses exactly once between
consecutive chunks and not after the last (`(len − 1) / batchSize` pauses);
the defaults of the source are `batchSize = 15` and `delayMs = 2000`. -/
theorem processBatches_order_preserving :
    ∀ (α β ε : Type) (g : α → β) (batchSize : Nat) (items : List α),
      1 ≤ batchSize →
      (processBatches (fun xs => (Except.ok (xs.map g) : Except ε (List β)))
          batchSize items).1 = Except.ok (items.map g)
      ∧ (processBatches (fun xs => (Except.ok (xs.map g) : Except ε (List β)))
          batchSize items).2.1 = (items.length - 1) / batchSize
      ∧ (processBatches (fun xs => (Except.ok (xs.map g) : Except ε (List β)))
          batchSize items).2.2.flatten = items
      ∧ (∀ c ∈ (processBatches (fun xs => (Except.ok (xs.map g) : Except ε (List β)))
          batchSize items).2.2, c.length ≤ batchSize ∧ c ≠ [])
      ∧ defaultBatchSize = 15 ∧ defaultDelayMs = 2000 := by
  intro α β ε g batchSize items hB
  have h := processBatchesGo_map_props (ε := ε) g batchSize hB items.length items
    (Nat.le_refl _)
  exact ⟨h.1, h.2.1, h.2.2.1, h.2.2.2, rfl, rfl⟩

theorem processBatches_order_preserving_witness :
    (processBatches (fun xs => (Except.ok (xs.map String.length) : Except String (List Nat)))
        2 ["ab", "c", "def"]).1 = Except.ok [2, 1, 3]
    ∧ (processBatches (fun xs => (Except.ok (xs.map String.length) : Except String (List Nat)))
        2 ["ab", "c", "def"]).2.1 = 1 := by
  have h := processBatches_order_preserving String Nat String String.length 2
    ["ab", "c", "def"] (by decide)
  constructor
  · rw [h.1]
    rfl
  · rw [h.2.1]
    rfl

/-! ## Lemmas about the regrouping loop -/

theorem keys_map_set {κ α : Type} [DecidableEq κ] (m : List (κ × α)) (k : κ) (v : α) :
    keys (m.map (fun p => if p.1 = k then (p.1, v) else p)) = keys m := by
  induction m with
  | nil => rfl
  | cons p t ih =>
    obtain ⟨k0, v0⟩ := p
    by_cases h : k0 = k <;> simp [keys, h] <;> simpa [keys] using ih

theorem notin_keys_of_olookup_none {κ α : Type} [DecidableEq κ] (m : List (κ × α))
    (k : κ) (h : olookup m k = none) : k ∉ keys m := by
  induction m with
  | nil => simp [keys]
  | cons p t ih =>
    obtain ⟨k0, v0⟩ := p
    rw [olookup_cons] at h
    by_cases hk : k0 = k
    · simp [hk] at h
    · simp only [hk, if_false] at h
      simp [keys, Ne.symm hk]
      simpa [keys] using ih h

theorem nodup_keys_objInsert {κ α : Type} [DecidableEq κ] (m : List (κ × α)) (k : κ)
    (v : α) (h : (keys m).Nodup) : (keys (objInsert m k v)).Nodup := by
  unfold objInsert
  by_cases hs : (olookup m k).isSome = true
  · rw [if_pos hs, keys_map_set]
    exact h
  · rw [if_neg hs]
    have hnone : olookup m k = none := Option.not_isSome_iff_eq_none.mp hs
    have hnotin := notin_keys_of_olookup_none m k hnone
    simp only [keys, List.map_append, List.map_cons, List.map_nil]
    rw [List.nodup_append]
    refine ⟨h, List.nodup_singleton k, ?_⟩
    intro a ha hb
    simp at hb
    subst hb
    exact hnotin ha

theorem length_objInsert_le {κ α : Type} [DecidableEq κ] (m : List (κ × α)) (k : κ)
    (v : α) : (objInsert m k v).length ≤ m.length + 1 := by
  unfold objInsert
  by_cases hs : (olookup m k).isSome = true
  · simp [hs]
  · simp [hs]

theorem map_set_id {κ α : Type} [DecidableEq κ] (m : List (κ × α)) (k : κ) (v : α)
    (h : ∀ p ∈ m, p.1 ≠ k) :
    m.map (fun p => if p.1 = k then (p.1, v) else p) = m := by
  induction m with
  | nil => rfl
  | cons p t ih =>
    obtain ⟨k0, v0⟩ := p
    have h0 : k0 ≠ k := h (k0, v0) (List.mem_cons_self _ _)
    simp only [List.map_cons, h0, if_false]
    rw [ih (fun p hp => h p (List.mem_cons_of_mem _ hp))]

theorem totalEntries_map_set (obj : TranslatedObject) (ns : Ns) (m w : List (String × String))
    (hnd : (keys obj).Nodup) (hs : olookup obj ns = some m) :
    totalEntries (obj.map (fun p => if p.1 = ns then (p.1, w) else p)) + m.length =
      totalEntries obj + w.length := by
  induction obj with
  | nil => simp [olookup] at hs
  | cons p rest ih =>
    obtain ⟨k0, v0⟩ := p
    rw [olookup_cons] at hs
    simp only [keys, List.map_cons, List.nodup_cons] at hnd
    obtain ⟨hnotin, hrest⟩ := hnd
    by_cases h0 : k0 = ns
    · simp only [h0, if_pos rfl] at hs
      have hv0 : v0 = m := Option.some_inj.mp hs
      subst hv0 h0
      have hid : rest.map (fun p => if p.1 = k0 then (p.1, w) else p) = rest := by
        refine map_set_id rest k0 w ?_
        intro p hp hpk
        exact hnotin (hpk ▸ List.mem_map_of_mem Prod.fst hp)
      simp only [List.map_cons, if_pos rfl, hid, totalEntries, List.sum_cons, if_true]
      omega
    · simp only [h0, if_false] at hs
      have := ih (by simpa [keys] using hrest) hs
      simp only [List.map_cons, h0, if_false, totalEntries, List.sum_cons] at this ⊢
      omega

theorem totalEntries_append_single (obj : TranslatedObject) (x : Ns × List (String × String)) :
    totalEntries (obj ++ [x]) = totalEntries obj + x.2.length := by
  simp [totalEntries, List.map_append, List.sum_append]

theorem objInsert_eq_map {κ α : Type} [DecidableEq κ] (m : List (κ × α)) (k : κ) (v : α)
    (hs : (olookup m k).isSome = true) :
    objInsert m k v = m.map (fun p => if p.1 = k then (p.1, v) else p) := by
  unfold objInsert
  rw [if_pos hs]

theorem objInsert_eq_append {κ α : Type} [DecidableEq κ] (m : List (κ × α)) (k : κ) (v : α)
    (hs : olookup m k = none) :
    objInsert m k v = m ++ [(k, v)] := by
  unfold objInsert
  rw [if_neg (by simp [hs])]

theorem totalEntries_objInsertNS (obj : TranslatedObject) (ns : Ns) (k v : String)
    (hnd : (keys obj).Nodup) :
    totalEntries (objInsertNS obj ns k v) ≤ totalEntries obj + 1 := by
  unfold objInsertNS
  cases hs : olookup obj ns with
  | some m =>
    simp only [hs, Option.getD_some]
    rw [objInsert_eq_map obj ns _ (by simp [hs])]
    have hlen := length_objInsert_le m k v
    have heq := totalEntries_map_set obj ns m (objInsert m k v) hnd hs
    omega
  | none =>
    simp only [hs, Option.getD_none]
    rw [objInsert_eq_append obj ns _ hs, totalEntries_append_single]
    have h1 : objInsert ([] : List (String × String)) k v = [(k, v)] := rfl
    simp [h1]

theorem nodup_keys_objInsertNS (obj : TranslatedObject) (ns : Ns) (k v : String)
    (hnd : (keys obj).Nodup) : (keys (objInsertNS obj ns k v)).Nodup := by
  unfold objInsertNS
  exact nodup_keys_objInsert _ _ _ hnd

theorem regroupGo_ok_bound :
    ∀ (ts : List String) (flat : List (Ns × String)) (obj : TranslatedObject),
      (keys obj).Nodup → ts.length ≤ flat.length →
      ∃ res, regroupGo obj flat ts = .ok res
        ∧ totalEntries res ≤ totalEntries obj + ts.length
        ∧ (keys res).Nodup := by
  intro ts
  induction ts with
  | nil =>
    intro flat obj h _
    refine ⟨obj, ?_, by omega, h⟩
    cases flat <;> rfl
  | cons t restT ih =>
    intro flat obj h hlen
    match flat with
    | [] => simp at hlen
    | (ns, orig) :: restMap =>
      have h2 := nodup_keys_objInsertNS obj ns (deriveKey orig) t h
      obtain ⟨res, hres, hb, hn⟩ := ih restMap (objInsertNS obj ns (deriveKey orig) t) h2
        (by simpa using hlen)
      refine ⟨res, ?_, ?_, hn⟩
      · simpa [regroupGo] using hres
      · have := totalEntries_objInsertNS obj ns (deriveKey orig) t h
        simp only [List.length_cons]
        omega

/-- C1 (corrected, counterexample): a stub provider that returns one string
for the two phrases sent does *not* make `translateStrings` fail — there is
no count check anywhere in the function — it succeeds with a mapping that
holds a single entry, silently omitting the second phrase. -/
theorem translateStrings_no_alignment_error_counterexample :
    (translateStrings ["aa", "bb"] "es" "key" "gemini"
        (fun _ => Except.ok ["X"])).1 = Except.ok [(Ns.common, [("aa", "X")])]
    ∧ (flattened ["aa", "bb"]).length = 2 := by
  exact ⟨rfl, rfl⟩

/-- C1 (amended): `translateStrings` performs no alignment check.  Whenever
the batched provider run succeeds with `ts` translations and `ts` is no
longer than the flattened phrase list, the function returns a *successful*
mapping whose total number of entries is at most `ts.length` — phrases
beyond the provider's output are silently dropped, and no error of any kind
is raised. -/
theorem translateStrings_short_provider_silently_omits :
    ∀ (strings : List String) (targetLang apiKey : String)
      (perBatch : List String → Except String (List String)) (ts : List String),
      strings ≠ [] →
      (processBatches perBatch defaultBatchSize ((flattened strings).map Prod.snd)).1 =
        Except.ok ts →
      ts.length ≤ (flattened strings).length →
      ∃ obj, (translateStrings strings targetLang apiKey "gemini" perBatch).1 =
          Except.ok obj ∧ totalEntries obj ≤ ts.length := by
  intro strings targetLang apiKey perBatch ts hne hok hlen
  obtain ⟨res, hres, hb, _⟩ := regroupGo_ok_bound ts (flattened strings) []
    (by simp [keys]) hlen
  refine ⟨res, ?_, by simpa [totalEntries] using hb⟩
  match strings, hne with
  | s :: ss, _ =>
    unfold translateStrings
    simp only [List.isEmpty_cons, Bool.false_eq_true, if_false, if_true]
    rw [hok]
    exact hres

theorem translateStrings_short_provider_silently_omits_witness :
    ∃ obj, (translateStrings ["aa", "bb"] "es" "key" "gemini"
        (fun _ => Except.ok ["X"])).1 = Except.ok obj ∧ totalEntries obj ≤ 1 := by
  exact translateStrings_short_provider_silently_omits ["aa", "bb"] "es" "key"
    (fun _ => Except.ok ["X"]) ["X"] (by decide) (by rfl) (by decide)

/-! ## Lemmas about key derivation -/

theorem isAsciiLower_toNat {c : Char} (h : isAsciiLower c = true) :
    97 ≤ c.toNat ∧ c.toNat ≤ 122 := by
  simp only [isAsciiLower, Bool.and_eq_true, decide_eq_true_eq] at h
  obtain ⟨h1, h2⟩ := h
  rw [Char.le_def] at h1 h2
  exact ⟨UInt32.le_toNat_of_le (by decide) h1, UInt32.toNat_le_of_le (by decide) h2⟩

theorem lower_toLower_id {c : Char} (h : isAsciiLower c = true) : Char.toLower c = c := by
  obtain ⟨h1, h2⟩ := isAsciiLower_toNat h
  unfold Char.toLower
  rw [if_neg]
  omega

theorem alnum_false_parts {c : Char} (h : isAsciiAlnum c = false) :
    isAsciiLower c = false ∧ isAsciiUpper c = false ∧ isAsciiDigit c = false := by
  simp only [isAsciiAlnum, Bool.or_eq_false_iff] at h
  exact ⟨h.1.1, h.1.2, h.2⟩

theorem alnum_of_lower {c : Char} (h : isAsciiLower c = true) : isAsciiAlnum c = true := by
  simp [isAsciiAlnum, h]

theorem takeWhile_dropWhile_congr {p q : Char → Bool} :
    ∀ l : List Char, (∀ a ∈ l, p a = q a) →
      l.takeWhile p = l.takeWhile q ∧ l.dropWhile p = l.dropWhile q := by
  intro l
  induction l with
  | nil => intro _; exact ⟨rfl, rfl⟩
  | cons c rest ih =>
    intro h
    have hc := h c (List.mem_cons_self _ _)
    obtain ⟨iht, ihd⟩ := ih (fun a ha => h a (List.mem_cons_of_mem _ ha))
    cases hq : q c
    · rw [hq] at hc
      simp [List.takeWhile, List.dropWhile, hc, hq]
    · rw [hq] at hc
      simp [List.takeWhile, List.dropWhile, hc, hq, iht, ihd]

theorem mem_takeWhile_pred {p : Char → Bool} :
    ∀ (l : List Char) (a : Char), a ∈ l.takeWhile p → p a = true := by
  intro l
  induction l with
  | nil => intro a ha; simp [List.takeWhile] at ha
  | cons c rest ih =>
    intro a ha
    cases hc : p c
    · simp [List.takeWhile, hc] at ha
    · simp only [List.takeWhile, hc] at ha
      rcases List.mem_cons.mp ha with h | h
      · subst h; exact hc
      · exact ih a h

theorem uwords_eq_lowerRuns :
    ∀ (fuel : Nat) (l : List Char),
      (∀ c ∈ l, isAsciiLower c = true ∨ isAsciiAlnum c = false) →
      uwordsFuel fuel l = runsFuel isAsciiLower fuel l := by
  intro fuel
  induction fuel with
  | zero => intro l _; cases l <;> rfl
  | succ fuel ih =>
    intro l h
    match l with
    | [] => rfl
    | c :: rest =>
      have hc := h c (List.mem_cons_self _ _)
      have hrest : ∀ a ∈ rest, isAsciiLower a = true ∨ isAsciiAlnum a = false :=
        fun a ha => h a (List.mem_cons_of_mem _ ha)
      rcases hc with hlow | hnal
      · simp only [uwordsFuel, runsFuel, hlow, if_true]
        congr 1
        exact ih (rest.dropWhile isAsciiLower)
          (fun a ha => hrest a ((rest.dropWhile_sublist isAsciiLower).subset ha))
      · obtain ⟨hl, hu, hd⟩ := alnum_false_parts hnal
        simp only [uwordsFuel, runsFuel, hl, hu, hd, Bool.false_eq_true, if_false]
        exact ih rest hrest

theorem alnumRuns_eq_lowerRuns :
    ∀ (fuel : Nat) (l : List Char),
      (∀ c ∈ l, isAsciiLower c = true ∨ isAsciiAlnum c = false) →
      runsFuel isAsciiAlnum fuel l = runsFuel isAsciiLower fuel l := by
  intro fuel
  induction fuel with
  | zero => intro l _; cases l <;> rfl
  | succ fuel ih =>
    intro l h
    match l with
    | [] => rfl
    | c :: rest =>
      have hc := h c (List.mem_cons_self _ _)
      have hrest : ∀ a ∈ rest, isAsciiLower a = true ∨ isAsciiAlnum a = false :=
        fun a ha => h a (List.mem_cons_of_mem _ ha)
      have hcong : ∀ a ∈ rest, isAsciiAlnum a = isAsciiLower a := by
        intro a ha
        rcases hrest a ha with hx | hx
        · rw [hx, alnum_of_lower hx]
        · rw [hx, (alnum_false_parts hx).1]
      obtain ⟨ht, hd⟩ := takeWhile_dropWhile_congr rest hcong
      rcases hc with hlow | hnal
      · simp only [runsFuel, hlow, alnum_of_lower hlow, if_true, ht, hd]
        congr 1
        exact ih (rest.dropWhile isAsciiLower)
          (fun a ha => hrest a ((rest.dropWhile_sublist isAsciiLower).subset ha))
      · simp only [runsFuel, hnal, (alnum_false_parts hnal).1, Bool.false_eq_true, if_false]
        exact ih rest hrest

theorem runs_lower_chars :
    ∀ (fuel : Nat) (l : List Char) (w : List Char),
      w ∈ runsFuel isAsciiLower fuel l → ∀ c ∈ w, isAsciiLower c = true := by
  intro fuel
  induction fuel with
  | zero => intro l w hw; simp [runsFuel] at hw
  | succ fuel ih =>
    intro l w hw
    match l with
    | [] => simp [runsFuel] at hw
    | c :: rest =>
      by_cases hc : isAsciiLower c = true
      · simp only [runsFuel, hc, if_true, List.mem_cons] at hw
        rcases hw with hw | hw
        · subst hw
          intro a ha
          rcases List.mem_cons.mp ha with h | h
          · subst h; exact hc
          · exact mem_takeWhile_pred rest a h
        · exact ih _ w hw
      · simp only [runsFuel, hc, if_false] at hw
        exact ih _ w hw

theorem toLowerWord_id_of_lower (w : List Char) (h : ∀ c ∈ w, isAsciiLower c = true) :
    toLowerWord w = w := by
  induction w with
  | nil => rfl
  | cons c rest ih =>
    simp only [toLowerWord, List.map_cons]
    rw [lower_toLower_id (h c (List.mem_cons_self _ _))]
    have := ih (fun a ha => h a (List.mem_cons_of_mem _ ha))
    simp only [toLowerWord] at this
    rw [this]

/-- On phrases made only of ASCII lowercase letters and non-alphanumeric
characters, both lodash word splitters agree and the words are exactly the
maximal letter runs — the "non-alphanumeric run boundaries become word
breaks" reading of the spec, apostrophes being removed first. -/
theorem camelCaseL_lowerRuns (l : List Char)
    (h : ∀ c ∈ l, isAsciiLower c = true ∨ isAsciiAlnum c = false) :
    camelCaseL l =
      (match runsFuel isAsciiLower (removeApos l).length (removeApos l) with
        | [] => []
        | w :: ws => w ++ (ws.map capitalizeWord).flatten) := by
  have hra : ∀ c ∈ removeApos l, isAsciiLower c = true ∨ isAsciiAlnum c = false :=
    fun c hc => h c (List.mem_of_mem_filter hc)
  have hwords : lodashWords (removeApos l) =
      runsFuel isAsciiLower (removeApos l).length (removeApos l) := by
    unfold lodashWords unicodeWords asciiWords
    by_cases hu : hasUnicodeWord (removeApos l) = true
    · rw [if_pos hu]
      exact uwords_eq_lowerRuns _ _ hra
    · rw [if_neg hu]
      exact alnumRuns_eq_lowerRuns _ _ hra
  unfold camelCaseL
  rw [hwords]
  cases hr : runsFuel isAsciiLower (removeApos l).length (removeApos l) with
  | nil => rfl
  | cons w ws =>
    have hw : ∀ c ∈ w, isAsciiLower c = true :=
      runs_lower_chars _ _ w (hr ▸ List.mem_cons_self _ _)
    show toLowerWord w ++ (ws.map (fun w2 => capitalizeWord (toLowerWord w2))).flatten =
      w ++ (ws.map capitalizeWord).flatten
    rw [toLowerWord_id_of_lower w hw]
    have hmap : ws.map (fun w2 => capitalizeWord (toLowerWord w2)) = ws.map capitalizeWord := by
      apply List.map_congr_left
      intro w2 hw2
      rw [toLowerWord_id_of_lower w2
        (runs_lower_chars _ _ w2 (hr ▸ List.mem_cons_of_mem _ hw2))]
    rw [hmap]

theorem runsFuel_nil_of_false (p : Char → Bool) :
    ∀ (fuel : Nat) (l : List Char), (∀ c ∈ l, p c = false) → runsFuel p fuel l = [] := by
  intro fuel
  induction fuel with
  | zero => intro l _; cases l <;> rfl
  | succ fuel ih =>
    intro l h
    match l with
    | [] => rfl
    | c :: rest =>
      simp only [runsFuel, h c (List.mem_cons_self _ _), Bool.false_eq_true, if_false]
      exact ih rest (fun a ha => h a (List.mem_cons_of_mem _ ha))

theorem uwordsFuel_nil_of_noalnum :
    ∀ (fuel : Nat) (l : List Char), (∀ c ∈ l, isAsciiAlnum c = false) →
      uwordsFuel fuel l = [] := by
  intro fuel
  induction fuel with
  | zero => intro l _; cases l <;> rfl
  | succ fuel ih =>
    intro l h
    match l with
    | [] => rfl
    | c :: rest =>
      obtain ⟨hl, hu, hd⟩ := alnum_false_parts (h c (List.mem_cons_self _ _))
      simp only [uwordsFuel, hl, hu, hd, Bool.false_eq_true, if_false]
      exact ih rest (fun a ha => h a (List.mem_cons_of_mem _ ha))

theorem camelCaseL_nil_of_noalnum (l : List Char)
    (h : ∀ c ∈ l, isAsciiAlnum c = false) : camelCaseL l = [] := by
  have hra : ∀ c ∈ removeApos l, isAsciiAlnum c = false :=
    fun c hc => h c (List.mem_of_mem_filter hc)
  unfold camelCaseL lodashWords unicodeWords asciiWords
  by_cases hu : hasUnicodeWord (removeApos l) = true
  · rw [if_pos hu, uwordsFuel_nil_of_noalnum _ _ hra]
  · rw [if_neg hu, runsFuel_nil_of_false _ _ _ hra]

/-- C7 (confirmed): `deriveKey` depends only on the first 30 characters of
the phrase; on phrases of lowercase letters and punctuation the derived key
is the camel-join of the maximal letter runs (non-alphanumeric run
boundaries become word breaks, the first word kept lower-case, subsequent
words capitalized); `deriveKey "Submit Form Now"` and
`deriveKey "submit form now!!"` collide on `"submitFormNow"`; and an empty
or all-punctuation phrase yields the empty key rather than an error. -/
theorem deriveKey_truncation_and_collisions :
    (∀ s t : String, s.toList.take 30 = t.toList.take 30 → deriveKey s = deriveKey t)
    ∧ deriveKey "Submit Form Now" = "submitFormNow"
    ∧ deriveKey "submit form now!!" = "submitFormNow"
    ∧ (∀ l : List Char, (∀ c ∈ l, isAsciiLower c = true ∨ isAsciiAlnum c = false) →
        camelCaseL l =
          (match runsFuel isAsciiLower (removeApos l).length (removeApos l) with
            | [] => []
            | w :: ws => w ++ (ws.map capitalizeWord).flatten))
    ∧ deriveKey "" = ""
    ∧ (∀ s : String, (∀ c ∈ s.toList, isAsciiAlnum c = false) → deriveKey s = "") := by
  refine ⟨?_, rfl, rfl, camelCaseL_lowerRuns, rfl, ?_⟩
  · intro s t h
    unfold deriveKey
    rw [h]
  · intro s h
    show String.mk (camelCaseL (s.toList.take 30)) = ""
    rw [camelCaseL_nil_of_noalnum _
      (fun c hc => h c ((s.toList.take_sublist 30).subset hc))]

theorem deriveKey_truncation_and_collisions_witness :
    deriveKey "it@is" = "itIs" ∧ deriveKey "???" = "" := by
  constructor
  · have h := deriveKey_truncation_and_collisions.2.2.2.1 "it@is".toList (by decide)
    have h2 : deriveKey "it@is" = camelCase "it@is" := rfl
    rw [h2]
    show String.mk (camelCaseL "it@is".toList) = "itIs"
    rw [h]
    rfl
  · exact deriveKey_truncation_and_collisions.2.2.2.2.2 "???" (by decide)

/-! ## Lemmas about the Gemini response extraction -/

theorem splitAtLast_none_notMem (x : Char) :
    ∀ l : List Char, splitAtLast x l = none → x ∉ l := by
  intro l
  induction l with
  | nil => intro _; simp
  | cons c rest ih =>
    intro h
    unfold splitAtLast at h
    cases hr : splitAtLast x rest with
    | some p => rw [hr] at h; simp at h
    | none =>
      rw [hr] at h
      by_cases hc : c = x
      · rw [if_pos hc] at h; simp at h
      · intro hmem
        rcases List.mem_cons.mp hmem with hm | hm
        · exact hc hm.symm
        · exact ih hr hm

theorem splitAtLast_spec (x : Char) :
    ∀ (l b a : List Char), splitAtLast x l = some (b, a) →
      l = b ++ x :: a ∧ x ∉ a := by
  intro l
  induction l with
  | nil => intro b a h; simp [splitAtLast] at h
  | cons c rest ih =>
    intro b a h
    unfold splitAtLast at h
    cases hr : splitAtLast x rest with
    | some p =>
      obtain ⟨b0, a0⟩ := p
      rw [hr] at h
      simp only [Option.some_inj, Prod.mk.injEq] at h
      obtain ⟨hb, ha⟩ := h
      obtain ⟨hrest, hnot⟩ := ih b0 a0 hr
      subst hb ha
      exact ⟨by rw [hrest]; rfl, hnot⟩
    | none =>
      rw [hr] at h
      by_cases hc : c = x
      · rw [if_pos hc] at h
        simp only [Option.some_inj, Prod.mk.injEq] at h
        obtain ⟨hb, ha⟩ := h
        subst hb ha hc
        exact ⟨rfl, splitAtLast_none_notMem c rest hr⟩
      · rw [if_neg hc] at h
        simp at h

theorem splitAtLast_isSome_of_mem (x : Char) :
    ∀ l : List Char, x ∈ l → (splitAtLast x l).isSome = true := by
  intro l hmem
  cases hs : splitAtLast x l with
  | some p => rfl
  | none => exact absurd hmem (splitAtLast_none_notMem x l hs)

theorem extractArray_none_of_no_close :
    ∀ l : List Char, ']' ∉ l → extractArray l = none := by
  intro l
  induction l with
  | nil => intro _; rfl
  | cons c rest ih =>
    intro h
    have hrest : ']' ∉ rest := fun hm => h (List.mem_cons_of_mem _ hm)
    unfold extractArray
    by_cases hc : c = '['
    · rw [if_pos hc]
      cases hs : splitAtLast ']' rest with
      | some p =>
        obtain ⟨b, a⟩ := p
        obtain ⟨heq, _⟩ := splitAtLast_spec ']' rest b a hs
        exact absurd (heq ▸ List.mem_append_right b (List.mem_cons_self _ _)) hrest
      | none => exact ih hrest
    · rw [if_neg hc]
      exact ih hrest

/-- Soundness of the greedy extraction: a match spans from the first `[`
(no earlier `[` exists) to the last `]` (no later `]` exists). -/
theorem extractArray_some_spec :
    ∀ (l t : List Char), extractArray l = some t →
      ∃ pre mid post, l = pre ++ '[' :: (mid ++ ']' :: post)
        ∧ '[' ∉ pre ∧ ']' ∉ post ∧ t = '[' :: (mid ++ [']']) := by
  intro l
  induction l with
  | nil => intro t h; simp [extractArray] at h
  | cons c rest ih =>
    intro t h
    unfold extractArray at h
    by_cases hc : c = '['
    · rw [if_pos hc] at h
      cases hs : splitAtLast ']' rest with
      | some p =>
        obtain ⟨before, after⟩ := p
        rw [hs] at h
        simp only [Option.some_inj] at h
        obtain ⟨heq, hnot⟩ := splitAtLast_spec ']' rest before after hs
        subst hc
        exact ⟨[], before, after, by simp [heq], by simp, hnot, h.symm⟩
      | none =>
        rw [hs] at h
        have : extractArray rest = none :=
          extractArray_none_of_no_close rest (splitAtLast_none_notMem ']' rest hs)
        rw [this] at h
        simp at h
    · rw [if_neg hc] at h
      obtain ⟨pre, mid, post, heq, hpre, hpost, ht⟩ := ih t h
      refine ⟨c :: pre, mid, post, by rw [heq]; rfl, ?_, hpost, ht⟩
      intro hmem
      rcases List.mem_cons.mp hmem with hm1 | hm2
      · exact hc hm1.symm
      · exact hpre hm2

/-- Completeness: whenever the text contains a `[` with some later `]`, the
regex matches. -/
theorem extractArray_isSome_of_span :
    ∀ (pre mid post : List Char),
      (extractArray (pre ++ '[' :: (mid ++ ']' :: post))).isSome = true := by
  intro pre
  induction pre with
  | nil =>
    intro mid post
    simp only [List.nil_append]
    unfold extractArray
    rw [if_pos rfl]
    cases hs : splitAtLast ']' (mid ++ ']' :: post) with
    | some p => rfl
    | none =>
      exact absurd (List.mem_append_right mid (List.mem_cons_self _ _))
        (splitAtLast_none_notMem ']' _ hs)
  | cons c pre ih =>
    intro mid post
    show (extractArray (c :: (pre ++ '[' :: (mid ++ ']' :: post)))).isSome = true
    unfold extractArray
    by_cases hc : c = '['
    · rw [if_pos hc]
      cases hs : splitAtLast ']' (pre ++ '[' :: (mid ++ ']' :: post)) with
      | some p => rfl
      | none =>
        exact absurd
          (List.mem_append_right pre (List.mem_cons_of_mem _
            (List.mem_append_right mid (List.mem_cons_self _ _))))
          (splitAtLast_none_notMem ']' _ hs)
    · rw [if_neg hc]
      exact ih mid post

/-- C9 (corrected, counterexample): on the response text `["a"] x ["b"]`
the code's greedy regex selects the whole span from the first `[` to the
*last* `]` (not the first top-level array `["a"]`), and `JSON.parse` of
that span fails, so `translateWithGemini` throws — whereas parsing the
first top-level bracketed array substring, as the claim describes, would
have succeeded with `["a"]`. -/
theorem parseGeminiResponse_greedy_counterexample :
    geminiExtract "[\"a\"] x [\"b\"]" = "[\"a\"] x [\"b\"]"
    ∧ parseGeminiResponse "[\"a\"] x [\"b\"]" =
        Except.error "SyntaxError: unexpected token in JSON"
    ∧ (firstTopLevelArraySpec ("[\"a\"] x [\"b\"]".toList)).map String.mk =
        some "[\"a\"]"
    ∧ jsonStringArray ("[\"a\"]".toList) = some ["a"] := by
  exact ⟨rfl, rfl, rfl, rfl⟩

/-- C9 (amended): the Gemini client's parsing takes the *greedy* bracket
span of the response — from the first `[` through the last `]` (one regex
match, possibly spanning several arrays) — and `JSON.parse`s it; when no
such span exists the entire response text is parsed; and a parse failure
is an error propagated to the caller, never a silent coercion to partial
results. -/
theorem parseGeminiResponse_greedy_policy :
    (∀ (l t : List Char), extractArray l = some t →
      ∃ pre mid post, l = pre ++ '[' :: (mid ++ ']' :: post)
        ∧ '[' ∉ pre ∧ ']' ∉ post ∧ t = '[' :: (mid ++ [']']))
    ∧ (∀ pre mid post : List Char,
        (extractArray (pre ++ '[' :: (mid ++ ']' :: post))).isSome = true)
    ∧ (∀ s : String, extractArray s.toList = none → geminiExtract s = s)
    ∧ (∀ s : String, jsonStringArray (geminiExtract s).toList = none →
        parseGeminiResponse s = Except.error "SyntaxError: unexpected token in JSON")
    ∧ (∀ (s : String) (arr : List String),
        jsonStringArray (geminiExtract s).toList = some arr →
        parseGeminiResponse s = Except.ok arr) := by
  refine ⟨extractArray_some_spec, extractArray_isSome_of_span, ?_, ?_, ?_⟩
  · intro s h
    unfold geminiExtract
    rw [h]
  · intro s h
    unfold parseGeminiResponse
    rw [h]
  · intro s arr h
    unfold parseGeminiResponse
    rw [h]

theorem parseGeminiResponse_greedy_policy_witness :
    (∃ pre mid post, "x[1]y[2]z".toList = pre ++ '[' :: (mid ++ ']' :: post)
      ∧ '[' ∉ pre ∧ ']' ∉ post ∧ "[1]y[2]".toList = '[' :: (mid ++ [']']))
    ∧ parseGeminiResponse "answer: [\"ok\"]" = Except.ok ["ok"] := by
  constructor
  · exact parseGeminiResponse_greedy_policy.1 "x[1]y[2]z".toList "[1]y[2]".toList rfl
  · exact parseGeminiResponse_greedy_policy.2.2.2.2 "answer: [\"ok\"]" ["ok"] rfl
